import Mathlib

/-!
Verification of the USBtoSerial bridge (src/usb/USBtoSerial.c).

The file embeds, shallowly:
  * the ring buffer used by the bridge (`RingBuffer`) — the implementation
    (LUFA `RingBuffer.h`) is not part of the repository's sources, so it is
    modelled from the spec's contract;
  * the bridge loop of `main` (ingress / egress / housekeeping), over an
    event trace so that structural properties of one iteration can be stated;
  * the line-encoding reconfigurator `EVENT_CDC_Device_LineEncodingChanged`,
    as a sequence of register writes on a USART register state.
-/

/-- Modelled from the spec: the ring buffer contract of §4.1 (the LUFA
`RingBuffer.h` implementation is not under the repository's sources, only its
callers are).  The occupied slots are kept as a list, head first; `capacity`
is the fixed capacity `C` chosen at construction (128 in `main`). -/
structure RingBuffer where
  data : List Nat
  capacity : Nat
deriving Repr, DecidableEq

/-- Modelled from the spec: `Count()` — number of occupied slots. -/
def RingBuffer.count (b : RingBuffer) : Nat := b.data.length

/-- Modelled from the spec: `IsFull()`. -/
def RingBuffer.isFull (b : RingBuffer) : Bool := b.count == b.capacity

/-- Modelled from the spec: `IsEmpty()`. -/
def RingBuffer.isEmpty (b : RingBuffer) : Bool := b.count == 0

/-- Modelled from the spec: `Insert(byte)` appends at the tail; the
precondition `not IsFull()` is caller-checked, the buffer itself does not
test it. -/
def RingBuffer.insert (b : RingBuffer) (x : Nat) : RingBuffer :=
  { b with data := b.data ++ [x] }

/-- Modelled from the spec: `Peek()` returns the head byte without removing
it (precondition `not IsEmpty()`, caller-checked). -/
def RingBuffer.peek (b : RingBuffer) : Nat := b.data.headD 0

/-- Modelled from the spec: `Remove()` discards the head byte. -/
def RingBuffer.remove (b : RingBuffer) : RingBuffer :=
  { b with data := b.data.tail }

/-- Modelled from the spec: `Init(capacity)` — empty buffer bound to a
storage region of the given capacity (`RingBuffer_InitBuffer` in `main`). -/
def RingBuffer.init (c : Nat) : RingBuffer := ⟨[], c⟩

/-- An abstract `Insert`/`Remove` operation on the ring buffer, for the FIFO
invariant of §8. -/
inductive BufOp where
  | ins (b : Nat)
  | rem
deriving Repr, DecidableEq

/-- One operation applied to a buffer. -/
def stepOp (buf : RingBuffer) : BufOp → RingBuffer
  | .ins x => buf.insert x
  | .rem => buf.remove

/-- `validOps buf ops` — the op sequence respects the caller-checked
preconditions: never `ins` while full, never `rem` while empty. -/
def validOps : RingBuffer → List BufOp → Bool
  | _, [] => true
  | buf, .ins x :: rest => !buf.isFull && validOps (buf.insert x) rest
  | buf, .rem :: rest => !buf.isEmpty && validOps buf.remove rest

/-- Run an op sequence; returns the final buffer and the bytes delivered by
the successive `Remove` calls (each `rem` delivers the head byte it
discards). -/
def runOps : RingBuffer → List BufOp → RingBuffer × List Nat
  | buf, [] => (buf, [])
  | buf, .ins x :: rest => runOps (buf.insert x) rest
  | buf, .rem :: rest =>
    let r := runOps buf.remove rest
    (r.1, buf.peek :: r.2)

/-- All intermediate buffer states of an op sequence, initial state
included. -/
def opStates : RingBuffer → List BufOp → List RingBuffer
  | buf, [] => [buf]
  | buf, op :: rest => buf :: opStates (stepOp buf op) rest

/-- The bytes passed to `Insert` by an op sequence, in order. -/
def insertedBytes (ops : List BufOp) : List Nat :=
  ops.filterMap fun op => match op with | .ins b => some b | .rem => none

/-- Number of `Insert` operations in the sequence. -/
def numIns (ops : List BufOp) : Nat := (insertedBytes ops).length

/-- Number of `Remove` operations in the sequence. -/
def numRem (ops : List BufOp) : Nat :=
  (ops.filter fun op => match op with | .rem => true | _ => false).length

lemma insert_capacity (b : RingBuffer) (x : Nat) :
    (b.insert x).capacity = b.capacity := rfl

lemma remove_capacity (b : RingBuffer) :
    b.remove.capacity = b.capacity := rfl

lemma insert_count (b : RingBuffer) (x : Nat) :
    (b.insert x).count = b.count + 1 := by
  simp [RingBuffer.insert, RingBuffer.count]

lemma remove_count (b : RingBuffer) :
    b.remove.count = b.count - 1 := by
  simp [RingBuffer.remove, RingBuffer.count]

lemma runOps_fst_data_append (buf : RingBuffer) (ops : List BufOp)
    (h : validOps buf ops = true) :
    (runOps buf ops).2 ++ (runOps buf ops).1.data = buf.data ++ insertedBytes ops := by
  induction ops generalizing buf with
  | nil => simp [runOps, insertedBytes]
  | cons op rest ih =>
    cases op with
    | ins x =>
      simp only [validOps, Bool.and_eq_true] at h
      have := ih (buf.insert x) h.2
      simpa [runOps, insertedBytes, RingBuffer.insert] using this
    | rem =>
      simp only [validOps, Bool.and_eq_true, Bool.not_eq_true'] at h
      have hne : buf.data ≠ [] := by
        intro hd
        simp [RingBuffer.isEmpty, RingBuffer.count, hd] at h
      obtain ⟨hd, tl, hdata⟩ := List.exists_cons_of_ne_nil hne
      have hrem : buf.remove = RingBuffer.mk tl buf.capacity := by
        simp [RingBuffer.remove, hdata]
      have h2 := ih buf.remove h.2
      rw [hrem] at h2
      simp only [runOps, hrem, RingBuffer.peek, hdata, List.headD_cons]
      simp only [insertedBytes, List.filterMap_cons] at h2 ⊢
      simp [h2]

lemma runOps_snd_length (buf : RingBuffer) (ops : List BufOp) :
    (runOps buf ops).2.length = numRem ops := by
  induction ops generalizing buf with
  | nil => simp [runOps, numRem]
  | cons op rest ih =>
    cases op with
    | ins x => simp [runOps, numRem, List.filter] at ih ⊢; exact ih _
    | rem =>
      simp only [runOps, numRem, List.filter, List.length_cons] at ih ⊢
      simp [ih buf.remove, numRem]

lemma opStates_count_le (buf : RingBuffer) (ops : List BufOp)
    (h : validOps buf ops = true) (hb : buf.count ≤ buf.capacity) :
    ∀ s ∈ opStates buf ops, s.count ≤ buf.capacity := by
  induction ops generalizing buf with
  | nil =>
    intro s hs
    simp [opStates] at hs
    simpa [hs]
  | cons op rest ih =>
    intro s hs
    cases op with
    | ins x =>
      simp only [validOps, Bool.and_eq_true, Bool.not_eq_true'] at h
      have hlt : buf.count < buf.capacity := by
        rcases Nat.lt_or_ge buf.count buf.capacity with hlt | hge
        · exact hlt
        · exfalso
          have : buf.count = buf.capacity := Nat.le_antisymm hb hge
          simp [RingBuffer.isFull, this] at h
      simp only [opStates, stepOp, List.mem_cons] at hs
      rcases hs with rfl | hs
      · exact hb
      · have := ih (buf.insert x) h.2
          (by simp [insert_count, insert_capacity]; omega) s hs
        simpa [insert_capacity] using this
    | rem =>
      simp only [validOps, Bool.and_eq_true] at h
      simp only [opStates, stepOp, List.mem_cons] at hs
      rcases hs with rfl | hs
      · exact hb
      · have := ih buf.remove h.2
          (by simp [remove_count, remove_capacity]; omega) s hs
        simpa [remove_capacity] using this

/-- C4: for every sequence of `Insert`/`Remove` operations from an empty
buffer of capacity `C` that respects the caller-checked preconditions
(never `Insert` while full, never `Remove`/`Peek` while empty), the final
`Count()` equals inserts minus removes, `Count() ≤ C` holds at every
intermediate state, and the bytes delivered by the successive `Remove`
calls are exactly the bytes passed to `Insert`, in insertion order. -/
theorem ringBuffer_fifo_invariant (C : Nat) (ops : List BufOp)
    (h : validOps (RingBuffer.init C) ops = true) :
    numRem ops ≤ numIns ops ∧
    (runOps (RingBuffer.init C) ops).1.count = numIns ops - numRem ops ∧
    (∀ s ∈ opStates (RingBuffer.init C) ops, s.count ≤ C) ∧
    (runOps (RingBuffer.init C) ops).2 = (insertedBytes ops).take (numRem ops) := by
  have hd := runOps_fst_data_append (RingBuffer.init C) ops h
  have hl := runOps_snd_length (RingBuffer.init C) ops
  have hnil : (RingBuffer.init C).data = [] := rfl
  rw [hnil, List.nil_append] at hd
  have hlen := congrArg List.length hd
  simp only [List.length_append, hl] at hlen
  refine ⟨?_, ?_, ?_, ?_⟩
  · simp only [numIns]
    omega
  · simp only [RingBuffer.count, numIns]
    omega
  · have := opStates_count_le (RingBuffer.init C) ops h
      (by simp [RingBuffer.init, RingBuffer.count])
    simpa [RingBuffer.init] using this
  · rw [← hd, List.take_left' hl]

/-- Witness for C4 at a concrete valid op sequence with capacity 2. -/
theorem ringBuffer_fifo_invariant_witness :
    (runOps (RingBuffer.init 2)
      [BufOp.ins 1, BufOp.ins 2, BufOp.rem, BufOp.ins 3, BufOp.rem, BufOp.rem]).2
      = [1, 2, 3] :=
  ((ringBuffer_fifo_invariant 2
      [BufOp.ins 1, BufOp.ins 2, BufOp.rem, BufOp.ins 3, BufOp.rem, BufOp.rem]
      (by decide)).2.2.2).trans (by decide)

/-- Observable actions of one bridge-loop iteration of `main`;
`readAttempt r` is a call of `CDC_Device_ReceiveByte` with result `r`,
`insert b` a `RingBuffer_Insert`, `sendAttempt b ok` a `CDC_Device_SendByte`
of `b` reporting success `ok`, `remove b` a `RingBuffer_Remove` discarding
`b`, and `serviceCDC` / `serviceUSB` the `CDC_Device_USBTask` /
`USB_USBTask` housekeeping calls. -/
inductive Ev where
  | readAttempt (r : Option Nat)
  | insert (b : Nat)
  | sendAttempt (b : Nat) (ok : Bool)
  | remove (b : Nat)
  | serviceCDC
  | serviceUSB
deriving Repr, DecidableEq

/-- Environment of one bridge-loop iteration: `recv` is the result of
`CDC_Device_ReceiveByte` (`none` for a negative return, i.e. no data),
`inReady` the result of `Endpoint_IsINReady`, and `sendRes i` whether the
`i`-th `CDC_Device_SendByte` of this iteration returns
`ENDPOINT_READYWAIT_NoError`. -/
structure IterInput where
  recv : Option Nat
  inReady : Bool
  sendRes : Nat → Bool

/-- Ingress phase of `main` (lines 92–99): only if the buffer is not full,
read one byte from the CDC interface and insert it unless the read reported
no data. -/
def ingress (buf : RingBuffer) (recv : Option Nat) : RingBuffer × List Ev :=
  if buf.isFull then (buf, [])
  else
    match recv with
    | some b => (buf.insert b, [Ev.readAttempt (some b), Ev.insert b])
    | none => (buf, [Ev.readAttempt none])

/-- Egress send loop of `main` (lines 113–123): `n` is the remaining
`BytesToSend`, `i` the index of the next send attempt.  Each step peeks the
head byte and attempts to send it; on success it is removed and the loop
continues, on the first failure the loop stops without removing. -/
def egressAux : Nat → RingBuffer → (Nat → Bool) → Nat → RingBuffer × List Ev
  | 0, buf, _, _ => (buf, [])
  | n + 1, buf, res, i =>
    if res i then
      let r := egressAux n buf.remove res (i + 1)
      (r.1, Ev.sendAttempt buf.peek true :: Ev.remove buf.peek :: r.2)
    else (buf, [Ev.sendAttempt buf.peek false])

/-- One full iteration of the bridge loop of `main` (lines 89–128):
ingress, then — only if the IN endpoint is ready — the egress loop over
`BytesToSend = MIN(BufferCount, CDC_TXRX_EPSIZE - 1)`, then the two
unconditional housekeeping calls.  `epsize` is `CDC_TXRX_EPSIZE`. -/
def iteration (epsize : Nat) (buf : RingBuffer) (inp : IterInput) :
    RingBuffer × List Ev :=
  let i1 := ingress buf inp.recv
  let e :=
    if inp.inReady then egressAux (min i1.1.count (epsize - 1)) i1.1 inp.sendRes 0
    else (i1.1, [])
  (e.1, i1.2 ++ e.2 ++ [Ev.serviceCDC, Ev.serviceUSB])

/-- Number of `CDC_Device_ReceiveByte` calls in a trace. -/
def numReads (l : List Ev) : Nat :=
  (l.filter fun e => match e with | Ev.readAttempt _ => true | _ => false).length

/-- Number of `CDC_Device_SendByte` calls in a trace. -/
def numSendAttempts (l : List Ev) : Nat :=
  (l.filter fun e => match e with | Ev.sendAttempt _ _ => true | _ => false).length

/-- The bytes successfully sent to the host, in order. -/
def emittedIn (l : List Ev) : List Nat :=
  l.filterMap fun e => match e with | Ev.sendAttempt b true => some b | _ => none

lemma egressAux_events (n : Nat) (buf : RingBuffer) (res : Nat → Bool) (i : Nat) :
    ∀ e ∈ (egressAux n buf res i).2,
      (∃ b ok, e = Ev.sendAttempt b ok) ∨ (∃ b, e = Ev.remove b) := by
  induction n generalizing buf i with
  | zero => simp [egressAux]
  | succ n ih =>
    intro e he
    by_cases hr : res i
    · simp only [egressAux, hr, if_true, List.mem_cons] at he
      rcases he with rfl | rfl | he
      · exact Or.inl ⟨buf.peek, true, rfl⟩
      · exact Or.inr ⟨buf.peek, rfl⟩
      · exact ih buf.remove (i + 1) e he
    · simp [egressAux, hr] at he
      exact Or.inl ⟨buf.peek, false, he⟩

lemma ingress_events (buf : RingBuffer) (recv : Option Nat) :
    ∀ e ∈ (ingress buf recv).2,
      (∃ r, e = Ev.readAttempt r) ∨ (∃ b, e = Ev.insert b) := by
  intro e he
  by_cases hf : buf.isFull
  · simp [ingress, hf] at he
  · cases recv with
    | some b =>
      simp [ingress, hf] at he
      rcases he with rfl | rfl
      · exact Or.inl ⟨some b, rfl⟩
      · exact Or.inr ⟨b, rfl⟩
    | none =>
      simp [ingress, hf] at he
      exact Or.inl ⟨none, he⟩

lemma egressAux_succ_true (m : Nat) (buf : RingBuffer) (res : Nat → Bool)
    (i : Nat) (h : res i = true) :
    egressAux (m + 1) buf res i = ((egressAux m buf.remove res (i + 1)).1,
      Ev.sendAttempt buf.peek true :: Ev.remove buf.peek
        :: (egressAux m buf.remove res (i + 1)).2) := by
  simp [egressAux, h]

lemma egressAux_succ_false (m : Nat) (buf : RingBuffer) (res : Nat → Bool)
    (i : Nat) (h : res i = false) :
    egressAux (m + 1) buf res i = (buf, [Ev.sendAttempt buf.peek false]) := by
  simp [egressAux, h]

lemma egressAux_take_drop (n : Nat) (d : List Nat) (cap : Nat)
    (res : Nat → Bool) (i : Nat) (hn : n ≤ d.length) :
    ∃ k, k ≤ n ∧ emittedIn (egressAux n ⟨d, cap⟩ res i).2 = d.take k ∧
      (egressAux n ⟨d, cap⟩ res i).1 = ⟨d.drop k, cap⟩ := by
  induction n generalizing d i with
  | zero =>
    exact ⟨0, Nat.le_refl 0, by simp [egressAux, emittedIn], by simp [egressAux]⟩
  | succ m ih =>
    cases d with
    | nil => simp at hn
    | cons hd tl =>
      by_cases hr : res i
      · have hrm : (RingBuffer.mk (hd :: tl) cap).remove = RingBuffer.mk tl cap := rfl
        obtain ⟨k, hk, he, hb⟩ := ih tl (i + 1) (by simp at hn; omega)
        refine ⟨k + 1, by omega, ?_, ?_⟩
        · rw [egressAux_succ_true m _ res i hr, hrm]
          simp only [emittedIn, List.filterMap_cons] at he ⊢
          simp only [RingBuffer.peek, List.headD_cons]
          simp [he, emittedIn]
        · rw [egressAux_succ_true m _ res i hr, hrm]
          simpa using hb
      · have hr' : res i = false := by simpa using hr
        refine ⟨0, Nat.zero_le _, ?_, ?_⟩
        · rw [egressAux_succ_false m _ res i hr']
          simp [emittedIn]
        · rw [egressAux_succ_false m _ res i hr']
          simp

lemma numSendAttempts_cons_send (b : Nat) (ok : Bool) (l : List Ev) :
    numSendAttempts (Ev.sendAttempt b ok :: l) = numSendAttempts l + 1 := by
  simp [numSendAttempts, List.filter_cons]

lemma numSendAttempts_cons_remove (b : Nat) (l : List Ev) :
    numSendAttempts (Ev.remove b :: l) = numSendAttempts l := by
  simp [numSendAttempts, List.filter_cons]

lemma egressAux_attempts_le (n : Nat) (buf : RingBuffer) (res : Nat → Bool)
    (i : Nat) : numSendAttempts (egressAux n buf res i).2 ≤ n := by
  induction n generalizing buf i with
  | zero => simp [egressAux, numSendAttempts]
  | succ m ih =>
    by_cases hr : res i
    · rw [egressAux_succ_true m buf res i hr, numSendAttempts_cons_send,
        numSendAttempts_cons_remove]
      exact Nat.succ_le_succ (ih buf.remove (i + 1))
    · have hr' : res i = false := by simpa using hr
      rw [egressAux_succ_false m buf res i hr']
      simp [numSendAttempts]

lemma egressAux_attempts_all (n : Nat) (buf : RingBuffer) (res : Nat → Bool)
    (i : Nat) (h : ∀ j, res j = true) :
    numSendAttempts (egressAux n buf res i).2 = n := by
  induction n generalizing buf i with
  | zero => simp [egressAux, numSendAttempts]
  | succ m ih =>
    rw [egressAux_succ_true m buf res i (h i), numSendAttempts_cons_send,
      numSendAttempts_cons_remove, ih buf.remove (i + 1)]

lemma egressAux_numReads (n : Nat) (buf : RingBuffer) (res : Nat → Bool)
    (i : Nat) : numReads (egressAux n buf res i).2 = 0 := by
  induction n generalizing buf i with
  | zero => simp [egressAux, numReads]
  | succ m ih =>
    by_cases hr : res i
    · rw [egressAux_succ_true m buf res i hr]
      have := ih buf.remove (i + 1)
      simp only [numReads, List.filter_cons] at this ⊢
      simpa using this
    · have hr' : res i = false := by simpa using hr
      rw [egressAux_succ_false m buf res i hr']
      simp [numReads]

lemma numSendAttempts_append (l1 l2 : List Ev) :
    numSendAttempts (l1 ++ l2) = numSendAttempts l1 + numSendAttempts l2 := by
  simp [numSendAttempts, List.filter_append]

lemma numReads_append (l1 l2 : List Ev) :
    numReads (l1 ++ l2) = numReads l1 + numReads l2 := by
  simp [numReads, List.filter_append]

lemma ingress_numSendAttempts (buf : RingBuffer) (recv : Option Nat) :
    numSendAttempts (ingress buf recv).2 = 0 := by
  by_cases hf : buf.isFull <;> cases recv <;> simp [ingress, hf, numSendAttempts]

/-- C1: retry safety of egress.  If the send of the peeked head byte fails,
the egress loop stops at once without removing it: the buffer (hence
`Count()` and `Peek()`) is exactly as before and nothing was emitted; a
subsequent successful send of the same head byte emits it and removes
exactly that one byte; and in general the bytes emitted by an egress phase
are an initial segment of the buffer, which keeps exactly the rest — so no
byte is lost or emitted twice across retries. -/
theorem egress_retry_safety (buf : RingBuffer) (res resR : Nat → Bool)
    (n nR : Nat) (hn : 1 ≤ n) (hnc : n ≤ buf.count) (hnR : 1 ≤ nR)
    (hnRc : nR ≤ buf.count) (hfail : res 0 = false) (hsucc : resR 0 = true) :
    (egressAux n buf res 0).1 = buf ∧
    emittedIn (egressAux n buf res 0).2 = [] ∧
    numSendAttempts (egressAux n buf res 0).2 = 1 ∧
    (∃ tl, (egressAux nR buf resR 0).2
        = Ev.sendAttempt buf.peek true :: Ev.remove buf.peek :: tl) ∧
    (egressAux 1 buf resR 0).1.data = buf.data.drop 1 ∧
    emittedIn (egressAux 1 buf resR 0).2 = [buf.peek] ∧
    (∀ m r, m ≤ buf.count →
      ∃ k, emittedIn (egressAux m buf r 0).2 = buf.data.take k ∧
        (egressAux m buf r 0).1.data = buf.data.drop k) := by
  obtain ⟨m, rfl⟩ : ∃ m, n = m + 1 := ⟨n - 1, by omega⟩
  obtain ⟨mR, rfl⟩ : ∃ m, nR = m + 1 := ⟨nR - 1, by omega⟩
  refine ⟨?_, ?_, ?_, ?_, ?_, ?_, ?_⟩
  · rw [egressAux_succ_false m buf res 0 hfail]
  · rw [egressAux_succ_false m buf res 0 hfail]
    simp [emittedIn]
  · rw [egressAux_succ_false m buf res 0 hfail]
    simp [numSendAttempts, List.filter_cons]
  · rw [egressAux_succ_true mR buf resR 0 hsucc]
    exact ⟨_, rfl⟩
  · rw [egressAux_succ_true 0 buf resR 0 hsucc]
    simp [egressAux, RingBuffer.remove, List.drop_one]
  · rw [egressAux_succ_true 0 buf resR 0 hsucc]
    simp [egressAux, emittedIn]
  · intro m' r hm'
    obtain ⟨d, cap⟩ := buf
    obtain ⟨k, _, he, hb⟩ :=
      egressAux_take_drop m' d cap r 0 (by simpa [RingBuffer.count] using hm')
    exact ⟨k, he, by rw [hb]⟩

/-- Witness for C1 on the concrete buffer `[7, 9]`: a failing first send
leaves the buffer untouched, and a succeeding egress phase of one step
emits exactly the head byte `7`. -/
theorem egress_retry_safety_witness :
    (egressAux 2 (RingBuffer.mk [7, 9] 128) (fun _ => false) 0).1
        = RingBuffer.mk [7, 9] 128 ∧
    emittedIn (egressAux 1 (RingBuffer.mk [7, 9] 128) (fun _ => true) 0).2
        = [7] := by
  have h := egress_retry_safety (RingBuffer.mk [7, 9] 128) (fun _ => false)
    (fun _ => true) 2 2 (by decide) (by decide) (by decide) (by decide) rfl rfl
  exact ⟨h.1, h.2.2.2.2.2.1.trans (by decide)⟩

/-- C3: in an iteration whose IN endpoint is ready and whose sends all
succeed, the number of send attempts of the egress phase is exactly
`min(Count(), CDC_TXRX_EPSIZE - 1)` (`Count()` taken after ingress); the
number of send attempts never exceeds `CDC_TXRX_EPSIZE - 1` in any
iteration; with `CDC_TXRX_EPSIZE = 64` and `Count() = 100` exactly 63
attempts are made. -/
theorem egress_chunk_cap (epsize : Nat) (buf : RingBuffer) (inp : IterInput)
    (hready : inp.inReady = true) (hok : ∀ i, inp.sendRes i = true) :
    numSendAttempts (iteration epsize buf inp).2
        = min (ingress buf inp.recv).1.count (epsize - 1) ∧
    (∀ inp' : IterInput,
      numSendAttempts (iteration epsize buf inp').2 ≤ epsize - 1) ∧
    ((ingress buf inp.recv).1.count = 100 → epsize = 64 →
      numSendAttempts (iteration epsize buf inp).2 = 63) := by
  have hserv : numSendAttempts [Ev.serviceCDC, Ev.serviceUSB] = 0 := rfl
  have hmain : numSendAttempts (iteration epsize buf inp).2
      = min (ingress buf inp.recv).1.count (epsize - 1) := by
    have h1 : (iteration epsize buf inp).2
        = (ingress buf inp.recv).2
          ++ (egressAux (min (ingress buf inp.recv).1.count (epsize - 1))
                (ingress buf inp.recv).1 inp.sendRes 0).2
          ++ [Ev.serviceCDC, Ev.serviceUSB] := by
      simp [iteration, hready]
    rw [h1, numSendAttempts_append, numSendAttempts_append,
      ingress_numSendAttempts, egressAux_attempts_all _ _ _ _ hok, hserv]
    omega
  refine ⟨hmain, ?_, ?_⟩
  · intro inp'
    by_cases hR : inp'.inReady
    · have h1 : (iteration epsize buf inp').2
          = (ingress buf inp'.recv).2
            ++ (egressAux (min (ingress buf inp'.recv).1.count (epsize - 1))
                  (ingress buf inp'.recv).1 inp'.sendRes 0).2
            ++ [Ev.serviceCDC, Ev.serviceUSB] := by
        simp [iteration, hR]
      rw [h1, numSendAttempts_append, numSendAttempts_append,
        ingress_numSendAttempts, hserv]
      have h2 := egressAux_attempts_le
        (min (ingress buf inp'.recv).1.count (epsize - 1))
        (ingress buf inp'.recv).1 inp'.sendRes 0
      have h3 := Nat.min_le_right (ingress buf inp'.recv).1.count (epsize - 1)
      omega
    · have h1 : (iteration epsize buf inp').2
          = (ingress buf inp'.recv).2 ++ [Ev.serviceCDC, Ev.serviceUSB] := by
        simp [iteration, hR]
      rw [h1, numSendAttempts_append, ingress_numSendAttempts, hserv]
      omega
  · intro h100 h64
    rw [hmain, h100, h64]
    omega

/-- Witness for C3: a buffer holding 100 bytes, endpoint size 64, all sends
succeeding — the iteration makes exactly 63 send attempts. -/
theorem egress_chunk_cap_witness :
    numSendAttempts (iteration 64 (RingBuffer.mk (List.replicate 100 5) 128)
      (IterInput.mk none true fun _ => true)).2 = 63 :=
  (egress_chunk_cap 64 (RingBuffer.mk (List.replicate 100 5) 128)
      (IterInput.mk none true fun _ => true) rfl (fun _ => rfl)).2.2
    (by decide) rfl

lemma ingress_full (buf : RingBuffer) (recv : Option Nat)
    (h : buf.isFull = true) : ingress buf recv = (buf, []) := by
  simp [ingress, h]

lemma ingress_fst_none (buf : RingBuffer) : (ingress buf none).1 = buf := by
  by_cases h : buf.isFull <;> simp [ingress, h]

lemma ingress_numReads_le (buf : RingBuffer) (recv : Option Nat) :
    numReads (ingress buf recv).2 ≤ 1 := by
  by_cases h : buf.isFull <;> cases recv <;> simp [ingress, h, numReads]

lemma iteration_numReads (epsize : Nat) (buf : RingBuffer) (inp : IterInput) :
    numReads (iteration epsize buf inp).2 = numReads (ingress buf inp.recv).2 := by
  have hserv : numReads [Ev.serviceCDC, Ev.serviceUSB] = 0 := rfl
  by_cases hR : inp.inReady
  · have h1 : (iteration epsize buf inp).2
        = (ingress buf inp.recv).2
          ++ (egressAux (min (ingress buf inp.recv).1.count (epsize - 1))
                (ingress buf inp.recv).1 inp.sendRes 0).2
          ++ [Ev.serviceCDC, Ev.serviceUSB] := by
      simp [iteration, hR]
    rw [h1, numReads_append, numReads_append, egressAux_numReads, hserv]
    omega
  · have h1 : (iteration epsize buf inp).2
        = (ingress buf inp.recv).2 ++ [Ev.serviceCDC, Ev.serviceUSB] := by
      simp [iteration, hR]
    rw [h1, numReads_append, hserv]
    omega

lemma insert_mem_ingress (buf : RingBuffer) (recv : Option Nat) (b : Nat)
    (h : Ev.insert b ∈ (ingress buf recv).2) :
    recv = some b ∧ buf.isFull = false := by
  by_cases hf : buf.isFull
  · simp [ingress, hf] at h
  · cases recv with
    | some x =>
      simp [ingress, hf] at h
      exact ⟨by simp [h], by simpa using hf⟩
    | none => simp [ingress, hf] at h

lemma insert_mem_iteration (epsize : Nat) (buf : RingBuffer) (inp : IterInput)
    (b : Nat) (h : Ev.insert b ∈ (iteration epsize buf inp).2) :
    Ev.insert b ∈ (ingress buf inp.recv).2 := by
  by_cases hR : inp.inReady
  · have h1 : (iteration epsize buf inp).2
        = (ingress buf inp.recv).2
          ++ (egressAux (min (ingress buf inp.recv).1.count (epsize - 1))
                (ingress buf inp.recv).1 inp.sendRes 0).2
          ++ [Ev.serviceCDC, Ev.serviceUSB] := by
      simp [iteration, hR]
    rw [h1] at h
    rcases List.mem_append.mp h with h | h
    · rcases List.mem_append.mp h with h | h
      · exact h
      · rcases egressAux_events _ _ _ _ _ h with ⟨c, ok, hc⟩ | ⟨c, hc⟩ <;>
          simp at hc
    · simp at h
  · have h1 : (iteration epsize buf inp).2
        = (ingress buf inp.recv).2 ++ [Ev.serviceCDC, Ev.serviceUSB] := by
      simp [iteration, hR]
    rw [h1] at h
    rcases List.mem_append.mp h with h | h
    · exact h
    · simp at h

/-- C5: ingress discipline — when the buffer is full no read happens at all
and the ingress phase leaves the buffer untouched (backpressure); at most
one byte is read per iteration; an `Insert` happens only for a byte the
read actually returned and only while the buffer is not full; a no-data
read leaves the buffer unchanged. -/
theorem ingress_discipline (epsize : Nat) (buf : RingBuffer) (inp : IterInput) :
    (buf.isFull = true → numReads (iteration epsize buf inp).2 = 0 ∧
      (ingress buf inp.recv).1 = buf) ∧
    numReads (iteration epsize buf inp).2 ≤ 1 ∧
    (∀ b, Ev.insert b ∈ (iteration epsize buf inp).2 →
      inp.recv = some b ∧ buf.isFull = false) ∧
    (inp.recv = none → (ingress buf inp.recv).1 = buf) := by
  refine ⟨?_, ?_, ?_, ?_⟩
  · intro hf
    rw [iteration_numReads, ingress_full buf inp.recv hf]
    exact ⟨rfl, rfl⟩
  · rw [iteration_numReads]
    exact ingress_numReads_le buf inp.recv
  · intro b hb
    exact insert_mem_ingress buf inp.recv b (insert_mem_iteration epsize buf inp b hb)
  · intro hr
    rw [hr]
    exact ingress_fst_none buf

/-- Witness for C5: a full buffer of capacity 2 — the iteration performs no
read and the ingress phase leaves the buffer unchanged. -/
theorem ingress_discipline_witness :
    numReads (iteration 64 (RingBuffer.mk [1, 2] 2)
      (IterInput.mk (some 5) true fun _ => true)).2 = 0 ∧
    (ingress (RingBuffer.mk [1, 2] 2) (some 5)).1 = RingBuffer.mk [1, 2] 2 :=
  (ingress_discipline 64 (RingBuffer.mk [1, 2] 2)
    (IterInput.mk (some 5) true fun _ => true)).1 rfl

lemma iteration_trace_split (epsize : Nat) (buf : RingBuffer) (inp : IterInput) :
    ∃ l, (iteration epsize buf inp).2 = l ++ [Ev.serviceCDC, Ev.serviceUSB] ∧
      ∀ e ∈ l, (∃ r, e = Ev.readAttempt r) ∨ (∃ b, e = Ev.insert b) ∨
        (∃ b ok, e = Ev.sendAttempt b ok) ∨ (∃ b, e = Ev.remove b) := by
  by_cases hR : inp.inReady
  · refine ⟨(ingress buf inp.recv).2
      ++ (egressAux (min (ingress buf inp.recv).1.count (epsize - 1))
            (ingress buf inp.recv).1 inp.sendRes 0).2, ?_, ?_⟩
    · simp [iteration, hR]
    · intro e he
      rcases List.mem_append.mp he with he | he
      · rcases ingress_events buf inp.recv e he with ⟨r, hr⟩ | ⟨b, hb⟩
        · exact Or.inl ⟨r, hr⟩
        · exact Or.inr (Or.inl ⟨b, hb⟩)
      · rcases egressAux_events _ _ _ _ e he with ⟨b, ok, hb⟩ | ⟨b, hb⟩
        · exact Or.inr (Or.inr (Or.inl ⟨b, ok, hb⟩))
        · exact Or.inr (Or.inr (Or.inr ⟨b, hb⟩))
  · refine ⟨(ingress buf inp.recv).2, ?_, ?_⟩
    · simp [iteration, hR]
    · intro e he
      rcases ingress_events buf inp.recv e he with ⟨r, hr⟩ | ⟨b, hb⟩
      · exact Or.inl ⟨r, hr⟩
      · exact Or.inr (Or.inl ⟨b, hb⟩)

/-- C8: every iteration of the bridge loop ends with the two transport
housekeeping calls (`CDC_Device_USBTask` then `USB_USBTask`), after the
ingress and egress phases, whatever the inputs were and whatever ingress or
egress did; neither housekeeping call occurs anywhere else in the
iteration. -/
theorem housekeeping_every_iteration (epsize : Nat) (buf : RingBuffer)
    (inp : IterInput) :
    ∃ l, (iteration epsize buf inp).2 = l ++ [Ev.serviceCDC, Ev.serviceUSB] ∧
      Ev.serviceCDC ∉ l ∧ Ev.serviceUSB ∉ l := by
  obtain ⟨l, hl, hev⟩ := iteration_trace_split epsize buf inp
  refine ⟨l, hl, ?_, ?_⟩ <;> intro h <;>
    rcases hev _ h with ⟨r, hr⟩ | ⟨b, hb⟩ | ⟨b, ok, hb⟩ | ⟨b, hb⟩ <;> simp_all

/-- C9: if the IN endpoint reports not-ready, the whole egress phase is
skipped — no send attempt is made and the buffer after the iteration is
exactly the buffer after ingress — while ingress and the two housekeeping
calls still execute. -/
theorem egress_skipped_when_not_ready (epsize : Nat) (buf : RingBuffer)
    (inp : IterInput) (h : inp.inReady = false) :
    (iteration epsize buf inp).1 = (ingress buf inp.recv).1 ∧
    numSendAttempts (iteration epsize buf inp).2 = 0 ∧
    (iteration epsize buf inp).2
      = (ingress buf inp.recv).2 ++ [Ev.serviceCDC, Ev.serviceUSB] := by
  have hR : ¬ inp.inReady = true := by simp [h]
  refine ⟨?_, ?_, ?_⟩
  · simp [iteration, hR]
  · have h1 : (iteration epsize buf inp).2
        = (ingress buf inp.recv).2 ++ [Ev.serviceCDC, Ev.serviceUSB] := by
      simp [iteration, hR]
    rw [h1, numSendAttempts_append, ingress_numSendAttempts]
    rfl
  · simp [iteration, hR]

/-- Witness for C9: a non-empty buffer (`Count() = 2 > 0`) and a not-ready
endpoint — the iteration leaves the buffer exactly as ingress left it. -/
theorem egress_skipped_when_not_ready_witness :
    0 < RingBuffer.count (RingBuffer.mk [3, 4] 128) ∧
    (iteration 64 (RingBuffer.mk [3, 4] 128)
      (IterInput.mk none false fun _ => true)).1 = RingBuffer.mk [3, 4] 128 :=
  ⟨by decide,
    ((egress_skipped_when_not_ready 64 (RingBuffer.mk [3, 4] 128)
        (IterInput.mk none false fun _ => true) rfl).1).trans
      (ingress_fst_none (RingBuffer.mk [3, 4] 128))⟩

/-- AVR USART register bit positions used by the handler.  The values come
from the device header (ATmega32U4 family), which is not part of the
repository's sources; the claims depend only on which bits each parameter
contributes, not on the positions themselves. -/
def UPM11 : Nat := 5

def UPM10 : Nat := 4

def USBS1 : Nat := 3

def UCSZ11 : Nat := 2

def UCSZ10 : Nat := 1

def U2X1 : Nat := 1

def RXCIE1 : Nat := 7

def TXEN1 : Nat := 3

def RXEN1 : Nat := 4

/-- Modelled from the spec: the CDC parity enum delivered by the host
(`None | Odd | Even`; the LUFA header declaring the numeric values is not
under the repository's sources). -/
def CDC_PARITY_None : Nat := 0

def CDC_PARITY_Odd : Nat := 1

def CDC_PARITY_Even : Nat := 2

/-- Modelled from the spec: the CDC stop-bit enum (`One | Two`). -/
def CDC_LINEENCODING_OneStopBit : Nat := 0

def CDC_LINEENCODING_TwoStopBits : Nat := 2

/-- The line-encoding record delivered by the host
(`CDCInterfaceInfo->State.LineEncoding`). -/
structure LineEncoding where
  BaudRateBPS : Nat
  CharFormat : Nat
  ParityType : Nat
  DataBits : Nat
deriving Repr, DecidableEq

/-- The `ConfigMask` computation of `EVENT_CDC_Device_LineEncodingChanged`
(lines 181–207): the parity `switch` (no default case), the two-stop-bit
test, and the data-bit `switch` (no default case — values outside 6/7/8
add no bits). -/
def configMask (le : LineEncoding) : Nat :=
  let m0 : Nat :=
    if le.ParityType = CDC_PARITY_Odd then (1 <<< UPM11) ||| (1 <<< UPM10)
    else if le.ParityType = CDC_PARITY_Even then 1 <<< UPM11
    else 0
  let m1 : Nat :=
    if le.CharFormat = CDC_LINEENCODING_TwoStopBits then m0 ||| (1 <<< USBS1)
    else m0
  if le.DataBits = 6 then m1 ||| (1 <<< UCSZ10)
  else if le.DataBits = 7 then m1 ||| (1 <<< UCSZ11)
  else if le.DataBits = 8 then m1 ||| (1 <<< UCSZ11) ||| (1 <<< UCSZ10)
  else m1

/-- Modelled from the spec: the double-speed baud divisor formula of §4.3
step 5 (the LUFA `SERIAL_2X_UBBRVAL` macro is not under the repository's
sources): `divisor = CPU_clock / (8 × baud) − 1` in integer arithmetic. -/
def SERIAL_2X_UBBRVAL (fcpu baud : Nat) : Nat := fcpu / (8 * baud) - 1

/-- The USART registers written by the handler. -/
structure USARTState where
  UCSR1A : Nat
  UCSR1B : Nat
  UCSR1C : Nat
  UBRR1 : Nat
deriving Repr, DecidableEq

/-- Names of the four registers. -/
inductive Reg where
  | rA
  | rB
  | rC
  | rBRR
deriving Repr, DecidableEq

/-- One register write. -/
def applyWrite (s : USARTState) (w : Reg × Nat) : USARTState :=
  match w.1 with
  | .rA => { s with UCSR1A := w.2 }
  | .rB => { s with UCSR1B := w.2 }
  | .rC => { s with UCSR1C := w.2 }
  | .rBRR => { s with UBRR1 := w.2 }

/-- The register writes of `EVENT_CDC_Device_LineEncodingChanged`
(lines 209–220), in program order: clear `UCSR1B`, `UCSR1A`, `UCSR1C`,
program `UBRR1`, then `UCSR1C := ConfigMask`, `UCSR1A := U2X`, and the
single final enable write of `UCSR1B`. -/
def eventWrites (fcpu : Nat) (le : LineEncoding) : List (Reg × Nat) :=
  [(Reg.rB, 0), (Reg.rA, 0), (Reg.rC, 0),
   (Reg.rBRR, SERIAL_2X_UBBRVAL fcpu le.BaudRateBPS),
   (Reg.rC, configMask le),
   (Reg.rA, 1 <<< U2X1),
   (Reg.rB, (1 <<< RXCIE1) ||| (1 <<< TXEN1) ||| (1 <<< RXEN1))]

/-- The full handler: all writes applied to the current register state. -/
def lineEncodingChanged (fcpu : Nat) (s : USARTState) (le : LineEncoding) :
    USARTState :=
  (eventWrites fcpu le).foldl applyWrite s

/-- All register states along a write sequence, initial state included. -/
def statesFrom (s : USARTState) : List (Reg × Nat) → List USARTState
  | [] => [s]
  | w :: ws => s :: statesFrom (applyWrite s w) ws

/-- The observable register states of one handler invocation. -/
def statesOf (fcpu : Nat) (s : USARTState) (le : LineEncoding) :
    List USARTState :=
  statesFrom s (eventWrites fcpu le)

/-- C2: reconfiguration atomicity.  From any prior register state, the
handler's state sequence has exactly 8 states; after the three clearing
writes all control/mode registers are zero (Disabled); every state strictly
between the first clearing write and the final enable has `UCSR1B = 0`, so
transmitter, receiver and receive-interrupt stay off while divisor and mode
are being programmed — no mix of old and new parameters is ever enabled;
the state just before the final write is fully programmed with the new
parameters but still disabled; the single final write enables transmitter,
receiver and receive-interrupt together on the fully new configuration. -/
theorem reconfig_atomicity (fcpu : Nat) (s : USARTState) (le : LineEncoding) :
    (statesOf fcpu s le).length = 8 ∧
    (statesOf fcpu s le).getD 3 ⟨0, 0, 0, 0⟩ = USARTState.mk 0 0 0 s.UBRR1 ∧
    ((((statesOf fcpu s le).drop 1).take 6).all fun x => x.UCSR1B == 0)
        = true ∧
    (statesOf fcpu s le).getD 6 ⟨0, 0, 0, 0⟩
      = USARTState.mk (1 <<< U2X1) 0 (configMask le)
          (SERIAL_2X_UBBRVAL fcpu le.BaudRateBPS) ∧
    (statesOf fcpu s le).getD 7 ⟨0, 0, 0, 0⟩
      = USARTState.mk (1 <<< U2X1)
          ((1 <<< RXCIE1) ||| (1 <<< TXEN1) ||| (1 <<< RXEN1))
          (configMask le) (SERIAL_2X_UBBRVAL fcpu le.BaudRateBPS) :=
  ⟨rfl, rfl, rfl, rfl, rfl⟩

/-- C10: the register state left by the handler is a function of the new
`LineEncoding` alone — two invocations with the same encoding from any two
prior register states end in the identical state, and that state is the
fully new configuration (every register overwritten; no bit of an older
configuration persists). -/
theorem reconfig_state_function (fcpu : Nat) (s t : USARTState)
    (le : LineEncoding) :
    lineEncodingChanged fcpu s le = lineEncodingChanged fcpu t le ∧
    lineEncodingChanged fcpu s le
      = USARTState.mk (1 <<< U2X1)
          ((1 <<< RXCIE1) ||| (1 <<< TXEN1) ||| (1 <<< RXEN1))
          (configMask le) (SERIAL_2X_UBBRVAL fcpu le.BaudRateBPS) :=
  ⟨rfl, rfl⟩

/-- C7: the divisor programmed into `UBRR1` is
`CPU_clock / (8 × baud) − 1`; in particular baud 9600 yields
`CPU_clock / 76800 − 1`. -/
theorem baud_divisor (fcpu : Nat) (s : USARTState) (le : LineEncoding) :
    (lineEncodingChanged fcpu s le).UBRR1 = fcpu / (8 * le.BaudRateBPS) - 1 ∧
    (lineEncodingChanged fcpu s (LineEncoding.mk 9600 0 0 8)).UBRR1
      = fcpu / 76800 - 1 :=
  ⟨rfl, rfl⟩

/-- C6: translation of the line encoding into the mode bitmask — parity
`None` contributes no parity bits, `Odd` sets both `UPM11` and `UPM10`,
`Even` sets `UPM11` only; the stop-bit flag `USBS1` is set exactly for the
two-stop-bits format; data bits 6, 7 and 8 set their table entries; any
other data-bit value sets no data-bit flag (silent default); for
`{parity=None, stopBits=One, dataBits=8}` the mask has exactly the
8-data-bit flags. -/
theorem lineEncoding_translation (le : LineEncoding) :
    (le.ParityType = CDC_PARITY_None →
      Nat.testBit (configMask le) UPM11 = false ∧
      Nat.testBit (configMask le) UPM10 = false) ∧
    (le.ParityType = CDC_PARITY_Odd →
      Nat.testBit (configMask le) UPM11 = true ∧
      Nat.testBit (configMask le) UPM10 = true) ∧
    (le.ParityType = CDC_PARITY_Even →
      Nat.testBit (configMask le) UPM11 = true ∧
      Nat.testBit (configMask le) UPM10 = false) ∧
    (Nat.testBit (configMask le) USBS1
      = decide (le.CharFormat = CDC_LINEENCODING_TwoStopBits)) ∧
    (le.DataBits = 6 → Nat.testBit (configMask le) UCSZ10 = true ∧
      Nat.testBit (configMask le) UCSZ11 = false) ∧
    (le.DataBits = 7 → Nat.testBit (configMask le) UCSZ11 = true ∧
      Nat.testBit (configMask le) UCSZ10 = false) ∧
    (le.DataBits = 8 → Nat.testBit (configMask le) UCSZ11 = true ∧
      Nat.testBit (configMask le) UCSZ10 = true) ∧
    (le.DataBits ≠ 6 → le.DataBits ≠ 7 → le.DataBits ≠ 8 →
      Nat.testBit (configMask le) UCSZ10 = false ∧
      Nat.testBit (configMask le) UCSZ11 = false) ∧
    configMask (LineEncoding.mk 9600 0 0 8)
      = (1 <<< UCSZ11) ||| (1 <<< UCSZ10) := by
  obtain ⟨baud, cf, pt, db⟩ := le
  by_cases h1 : pt = CDC_PARITY_Odd <;>
    by_cases h2 : pt = CDC_PARITY_Even <;>
    by_cases h3 : cf = CDC_LINEENCODING_TwoStopBits <;>
    by_cases h6 : db = 6 <;>
    by_cases h7 : db = 7 <;>
    by_cases h8 : db = 8 <;>
    simp_all [configMask, CDC_PARITY_None, CDC_PARITY_Odd, CDC_PARITY_Even,
      CDC_LINEENCODING_TwoStopBits, UPM11, UPM10, USBS1, UCSZ11, UCSZ10] <;>
    first
      | decide
      | (refine ⟨fun _ => ?_, ?_⟩ <;> decide)

/-- Witness for C6 at `{baud=9600, parity=None, stopBits=One, dataBits=8}`:
no parity bit is set in the mask. -/
theorem lineEncoding_translation_witness :
    Nat.testBit (configMask (LineEncoding.mk 9600 0 0 8)) UPM11 = false ∧
    Nat.testBit (configMask (LineEncoding.mk 9600 0 0 8)) UPM10 = false :=
  (lineEncoding_translation (LineEncoding.mk 9600 0 0 8)).1 rfl
